import Mathlib

/-!
Shallow embedding of the segmented transcription pipeline of
`enacom_transcriptor` (files `processing.py` and `infracciones.py`).
Floats of the Python code are modelled as rationals; filesystem and
external-engine effects are modelled by explicit state passing.
-/

namespace Transcriptor

/-! ## Segmenter (processing.py, run_processing lines 188-189 and 265-267)

`total_duration = len(data) / samplerate if samplerate else 0.0`
`num_segments = max(1, math.ceil(total_duration / segment_duration))`
and per iteration `i`:
`start_sec = i * segment_duration`
`end_sec = min((i + 1) * segment_duration, total_duration)` -/

structure Segment where
  index : Nat
  startSec : ℚ
  endSec : ℚ
  deriving Repr, DecidableEq

/-- Code line `total_duration = len(data) / samplerate if samplerate else 0.0`. -/
def totalDuration (sampleCount samplerate : ℕ) : ℚ :=
  if samplerate = 0 then 0 else (sampleCount : ℚ) / (samplerate : ℚ)

/-- Code line `num_segments = max(1, math.ceil(total_duration / segment_duration))`. -/
def numSegments (duration : ℚ) (windowSec : ℕ) : ℕ :=
  max 1 (Int.toNat ⌈duration / (windowSec : ℚ)⌉)

/-- The segment built at loop iteration `i`:
`start_sec = i * segment_duration`,
`end_sec = min((i + 1) * segment_duration, total_duration)`. -/
def mkSegment (duration : ℚ) (windowSec : ℕ) (i : ℕ) : Segment :=
  ⟨i, ((i * windowSec : ℕ) : ℚ), min (((i + 1) * windowSec : ℕ) : ℚ) duration⟩

/-- The ordered sequence of segments the loop `for i in range(num_segments)` runs over. -/
def segments (duration : ℚ) (windowSec : ℕ) : List Segment :=
  (List.range (numSegments duration windowSec)).map (mkSegment duration windowSec)

/-! ## SpeakerAssigner (processing.py, `_speaker_for`, lines 56-62) -/

structure SpeakerTurn where
  start : ℚ
  endSec : ℚ
  speaker : String
  deriving Repr, DecidableEq

/-- The linear scan of `_speaker_for`: first turn with `start <= t <= end`
wins, otherwise the empty string. -/
def speakerScan (t : ℚ) : List SpeakerTurn → String
  | [] => ""
  | s :: rest => if s.start ≤ t ∧ t ≤ s.endSec then s.speaker else speakerScan t rest

/-- Function `_speaker_for(t, diar)`. Here `diar` is `list[dict] | None`; `None` and the
empty list both take the `if not diar: return ""` branch. -/
def _speaker_for (t : ℚ) (diar : Option (List SpeakerTurn)) : String :=
  match diar with
  | none => ""
  | some l => speakerScan t l

/-! ## InfractionScanner (infracciones.py, `detectar_infracciones_en_texto`) -/

/-- Python `str.lower()` on the character sequence (ASCII case folding; all
terms and texts considered here are ASCII). -/
def pyLower (s : List Char) : List Char := s.map Char.toLower

/-- Python `str.strip()`: drop whitespace from both ends. -/
def pyStrip (s : List Char) : List Char :=
  ((s.dropWhile Char.isWhitespace).reverse.dropWhile Char.isWhitespace).reverse

/-- Python regex word character over the ASCII range (`[A-Za-z0-9_]`); all
terms and texts considered here are ASCII. -/
def isWordChar (c : Char) : Bool := c.isAlphanum || c == '_'

/-- Whether offset `p` of `s` holds a word character (out of range counts as
non-word, as beyond the ends of a regex subject). -/
def wordAt (s : List Char) (p : Nat) : Bool :=
  match s[p]? with
  | some c => isWordChar c
  | none => false

/-- Python regex `\b` before offset `p` of `s`: exactly one of the adjacent
positions holds a word character. -/
def boundaryAt (s : List Char) (p : Nat) : Bool :=
  (decide (0 < p) && wordAt s (p - 1)) != wordAt s p

/-- Case-insensitive literal match of `t` at offset `p` of `s` (the effect of
`re.IGNORECASE` on a `re.escape`d pattern). -/
def matchesAt (t s : List Char) (p : Nat) : Bool :=
  ((s.drop p).take t.length).map Char.toLower == t.map Char.toLower

/-- The call `re.search(rf"\b{re.escape(termino)}\b", texto, re.IGNORECASE)` viewed as
a Boolean: some offset carries the literal term with a word boundary on both
sides. -/
def wholeWordSearch (t s : List Char) : Bool :=
  (List.range (s.length + 1)).any (fun p =>
    matchesAt t s p && boundaryAt s p && boundaryAt s (p + t.length))

/-- Python `t in s` substring test on already case-folded strings. -/
def isSubstr (t s : List Char) : Bool :=
  (List.range (s.length + 1)).any (fun p => (s.drop p).take t.length == t)

structure Infraccion where
  archivo : String
  termino : String
  inicio : String
  fin : String
  texto : String
  deriving Repr, DecidableEq

/-- The loop body of `detectar_infracciones_en_texto` for one configured
item: normalize the term (`strip().lower()`), skip blanks, then the
`coincidencia_parcial` choice between substring on the lowered text and the
word-boundary regex on the original text. -/
def scanItem (archivo texto inicio fin : String) (coincidencia_parcial : Bool)
    (item : String) : Option Infraccion :=
  let termino := pyLower (pyStrip item.data)
  if termino = [] then none
  else
    let ok := if coincidencia_parcial then isSubstr termino (pyLower texto.data)
              else wholeWordSearch termino texto.data
    if ok then some ⟨archivo, String.mk termino, inicio, fin, texto⟩ else none

/-- Function `detectar_infracciones_en_texto`. The config list is modelled by the
`termino` value of each of its dicts. -/
def detectar_infracciones_en_texto (archivo texto inicio fin : String)
    (infracciones_cfg : List String) (coincidencia_parcial : Bool) :
    List Infraccion :=
  if texto = "" ∨ infracciones_cfg = [] then []
  else infracciones_cfg.filterMap (scanItem archivo texto inicio fin coincidencia_parcial)

/-! ## Per-segment transcription loop (processing.py, run_processing,
lines 255-402) -/

/-- One raw tuple returned by the ASR engine, clip-local
(`{"start": ..., "end": ..., "text": ...}`). -/
structure RawSeg where
  start : ℚ
  endSec : ℚ
  text : String
  deriving Repr, DecidableEq

/-- One entry of the `segments_done` accumulator
(`{"start", "end", "text", "speaker"}`), in absolute time. -/
structure TranscriptEvent where
  start : ℚ
  endSec : ℚ
  text : String
  speaker : String
  deriving Repr, DecidableEq

/-- Filesystem life of a per-segment clip (`_mktemp_wav` / `os.remove`). -/
inductive ClipAction where
  | created (i : ℕ)
  | deleted (i : ℕ)
  deriving Repr, DecidableEq

/-- State threaded through the `for i in range(num_segments)` loop:
the `segments_done` accumulator, the `segment_errors` counter, the sequence
of checkpoint dumps (`{"next_segment", "segments_done"}` pairs) and the trace
of clip filesystem actions. -/
structure LoopState where
  segmentsDone : List TranscriptEvent
  segmentErrors : ℕ
  checkpoints : List (ℕ × List TranscriptEvent)
  clipTrace : List ClipAction
  deriving Repr, DecidableEq

def initLoopState : LoopState := ⟨[], 0, [], []⟩

/-- Lines 298-308: each raw tuple with non-blank trimmed text becomes a
TranscriptEvent at absolute time (clip-local offset plus the segment's
`start_sec`), with the speaker resolved at the event midpoint. -/
def eventsOfResult (startSec : ℚ) (diar : Option (List SpeakerTurn))
    (raws : List RawSeg) : List TranscriptEvent :=
  raws.filterMap (fun s =>
    let sText := pyStrip s.text.data
    if sText = [] then none
    else
      let sStart := s.start + startSec
      let sEnd := s.endSec + startSec
      some ⟨sStart, sEnd, String.mk sText, _speaker_for ((sStart + sEnd) / 2) diar⟩)

/-- One iteration of the segment loop (lines 265-381). The `try` body
(slice, `sf.write`, `model.transcribe`) is abstracted as `engine i`, which
either returns the raw tuples of segment `i` or raises. On a raise, the
`except` branch counts the error and dumps a checkpoint, `result` stays `{}`
so no events are produced, and the iteration still dumps the end-of-loop
checkpoint; the `finally` branch removes the clip on both paths. -/
def segStep (windowSec : ℕ) (diar : Option (List SpeakerTurn))
    (engine : ℕ → Except String (List RawSeg)) (st : LoopState) (i : ℕ) :
    LoopState :=
  let startSec : ℚ := ((i * windowSec : ℕ) : ℚ)
  let stOpen := { st with clipTrace := st.clipTrace ++ [ClipAction.created i] }
  match engine i with
  | Except.error _ =>
      let stErr := { stOpen with
        segmentErrors := stOpen.segmentErrors + 1,
        checkpoints := stOpen.checkpoints ++ [(i + 1, stOpen.segmentsDone)] }
      let stClosed := { stErr with
        clipTrace := stErr.clipTrace ++ [ClipAction.deleted i] }
      { stClosed with
        checkpoints := stClosed.checkpoints ++ [(i + 1, stClosed.segmentsDone)] }
  | Except.ok raws =>
      let stClosed := { stOpen with
        clipTrace := stOpen.clipTrace ++ [ClipAction.deleted i] }
      let evs := eventsOfResult startSec diar raws
      { stClosed with
        segmentsDone := stClosed.segmentsDone ++ evs,
        checkpoints := stClosed.checkpoints ++ [(i + 1, stClosed.segmentsDone ++ evs)] }

/-- The whole per-file segment loop (`for i in range(num_segments)`). -/
def runSegments (windowSec : ℕ) (diar : Option (List SpeakerTurn))
    (engine : ℕ → Except String (List RawSeg)) (n : ℕ) : LoopState :=
  (List.range n).foldl (segStep windowSec diar engine) initLoopState

/-- The events contributed by segment `i` alone. -/
def segEvents (windowSec : ℕ) (diar : Option (List SpeakerTurn))
    (engine : ℕ → Except String (List RawSeg)) (i : ℕ) : List TranscriptEvent :=
  match engine i with
  | Except.error _ => []
  | Except.ok raws => eventsOfResult ((i * windowSec : ℕ) : ℚ) diar raws

/-- Whether the engine raises on segment `i`. -/
def engineFails (engine : ℕ → Except String (List RawSeg)) (i : ℕ) : Bool :=
  match engine i with
  | Except.error _ => true
  | Except.ok _ => false

/-- The clips alive after a trace of clip actions (creation appends,
deletion removes the first matching entry). -/
def liveClipsAux (acc : List ℕ) : List ClipAction → List ℕ
  | [] => acc
  | ClipAction.created i :: rest => liveClipsAux (acc ++ [i]) rest
  | ClipAction.deleted i :: rest => liveClipsAux (acc.erase i) rest

def liveClips (trace : List ClipAction) : List ℕ := liveClipsAux [] trace

/-- A concrete engine for instantiating the loop theorems: every segment
returns two ordered clip-local tuples. -/
def sampleEngineOk : ℕ → Except String (List RawSeg) :=
  fun _ => Except.ok [⟨0, 1, "hola"⟩, ⟨2, 3, "mundo"⟩]

/-- A concrete engine for instantiating the loop theorems: raises on
segment 1, succeeds elsewhere. -/
def sampleEngineFail : ℕ → Except String (List RawSeg) :=
  fun i => if i = 1 then Except.error "boom" else Except.ok [⟨0, 1, "hola"⟩]

/-! ## RunPackager (processing.py, `_make_run_zip` lines 65-78 and its call
site at lines 518-524) -/

/-- Python `Path(p).name`: the final path component. -/
def pathName (p : String) : String := (p.splitOn "/").getLastD p

/-- Python `list(dict.fromkeys(paths))`: first occurrence of each path, in
insertion order. -/
def dedupFirst (paths : List String) : List String :=
  paths.foldl (fun acc p => if p ∈ acc then acc else acc ++ [p]) []

/-- Reference shape of first-occurrence deduplication: keep the head, drop
its later duplicates, recurse. -/
def keepFirsts : List String → List String
  | [] => []
  | p :: rest => p :: (keepFirsts rest).filter (fun q => q != p)

/-- Function `_make_run_zip`: the archive is the `meta.json` descriptor followed by
every non-empty existing path, arcnamed by its final component; the blanket
`except` turns any failure of the underlying write machinery (modelled by
the `ioFailure` flag) into `None` instead of an exception. The filesystem is
modelled by its existence predicate. -/
def _make_run_zip (fsExists : String → Bool) (ioFailure : Bool)
    (zip_path : String) (paths : List String) : Option (String × List String) :=
  if ioFailure then none
  else some (zip_path, "meta.json" ::
    (paths.filter (fun p => (p != "") && fsExists p)).map pathName)

/-- The `export_zip` call site: filter `generated_paths` to existing ones,
deduplicate preserving first occurrence, then build the archive. -/
def packageRun (fsExists : String → Bool) (ioFailure : Bool)
    (zip_path : String) (generated_paths : List String) :
    Option (String × List String) :=
  _make_run_zip fsExists ioFailure zip_path
    (dedupFirst (generated_paths.filter (fun p => (p != "") && fsExists p)))

/-! ## Helper lemmas about the segmenter -/

lemma numSegments_pos (d : ℚ) (w : ℕ) : 0 < numSegments d w :=
  lt_of_lt_of_le one_pos (le_max_left 1 _)

lemma div_le_numSegments (d : ℚ) (w : ℕ) :
    d / (w : ℚ) ≤ ((numSegments d w : ℕ) : ℚ) := by
  have h1 : d / (w : ℚ) ≤ (⌈d / (w : ℚ)⌉ : ℚ) := Int.le_ceil _
  have h2 : (⌈d / (w : ℚ)⌉ : ℚ) ≤ ((Int.toNat ⌈d / (w : ℚ)⌉ : ℕ) : ℚ) := by
    exact_mod_cast Int.self_le_toNat _
  have h3 : ((Int.toNat ⌈d / (w : ℚ)⌉ : ℕ) : ℚ) ≤ ((numSegments d w : ℕ) : ℚ) := by
    exact_mod_cast le_max_right 1 (Int.toNat ⌈d / (w : ℚ)⌉)
  linarith

lemma le_numSegments_mul (d : ℚ) (w : ℕ) (hw : 0 < w) :
    d ≤ ((numSegments d w : ℕ) : ℚ) * (w : ℚ) := by
  have hw0 : (0 : ℚ) < (w : ℚ) := by exact_mod_cast hw
  rw [← div_le_iff₀ hw0]
  exact div_le_numSegments d w

lemma succ_lt_num_mul_lt (d : ℚ) (w : ℕ) (hw : 0 < w) {i : ℕ}
    (h : i + 1 < numSegments d w) : (((i + 1) * w : ℕ) : ℚ) < d := by
  have hw0 : (0 : ℚ) < (w : ℚ) := by exact_mod_cast hw
  have h1 : i + 1 < Int.toNat ⌈d / (w : ℚ)⌉ := by
    unfold numSegments at h; omega
  have h2 : ((i + 1 : ℕ) : ℤ) < ⌈d / (w : ℚ)⌉ := Int.lt_toNat.mp h1
  have h3 : (((i + 1 : ℕ) : ℚ)) < d / (w : ℚ) := by
    exact_mod_cast Int.lt_ceil.mp h2
  have h4 := (lt_div_iff₀ hw0).mp h3
  push_cast
  push_cast at h4
  linarith

lemma mul_lt_duration_of_pos_index (d : ℚ) (w : ℕ) (hw : 0 < w) {i : ℕ}
    (hi0 : 0 < i) (hi : i < numSegments d w) : ((i * w : ℕ) : ℚ) < d := by
  have hw0 : (0 : ℚ) < (w : ℚ) := by exact_mod_cast hw
  have ht : i < Int.toNat ⌈d / (w : ℚ)⌉ := by
    unfold numSegments at hi; omega
  have h2 : ((i : ℕ) : ℤ) < ⌈d / (w : ℚ)⌉ := Int.lt_toNat.mp ht
  have h3 : (⌈d / (w : ℚ)⌉ : ℚ) < d / (w : ℚ) + 1 := Int.ceil_lt_add_one _
  have h4 : ((i : ℕ) : ℚ) + 1 ≤ (⌈d / (w : ℚ)⌉ : ℚ) := by exact_mod_cast h2
  have h5 : ((i : ℕ) : ℚ) < d / (w : ℚ) := by linarith
  have h6 := (lt_div_iff₀ hw0).mp h5
  push_cast
  linarith

lemma segments_of_zero (w : ℕ) (hw : 0 < w) : segments 0 w = [⟨0, 0, 0⟩] := by
  have h1 : numSegments 0 w = 1 := by
    simp [numSegments]
  have hmin : min (((0 + 1) * w : ℕ) : ℚ) 0 = 0 := by
    apply min_eq_right
    positivity
  rw [segments, h1]
  simp [List.range_succ, mkSegment, hmin]

/-- C1: for every `duration ≥ 0` and `windowSec > 0`, the segmenter produces
exactly `max(1, ceil(duration / windowSec))` segments; segment `i` spans
`[i*windowSec, min((i+1)*windowSec, duration)]`, the segments are contiguous,
ordered and non-overlapping, the last segment's `endSec` equals `duration`,
and `duration = 0` yields exactly one zero-length segment. -/
theorem segmenter_count_and_coverage (duration : ℚ) (windowSec : ℕ)
    (hd : 0 ≤ duration) (hw : 0 < windowSec) :
    (segments duration windowSec).length
        = max 1 (Int.toNat ⌈duration / (windowSec : ℚ)⌉)
    ∧ (∀ i, i < numSegments duration windowSec →
        (segments duration windowSec)[i]? =
          some ⟨i, ((i * windowSec : ℕ) : ℚ),
                min (((i + 1) * windowSec : ℕ) : ℚ) duration⟩)
    ∧ List.Chain' (fun a b => a.endSec = b.startSec) (segments duration windowSec)
    ∧ List.Pairwise (fun a b => a.startSec < b.startSec) (segments duration windowSec)
    ∧ List.Pairwise (fun a b => a.endSec ≤ b.startSec) (segments duration windowSec)
    ∧ ((segments duration windowSec).getLast?).map Segment.endSec = some duration
    ∧ (duration = 0 → segments duration windowSec = [⟨0, 0, 0⟩]) := by
  have hw0 : (0 : ℚ) < (windowSec : ℚ) := by exact_mod_cast hw
  refine ⟨?_, ?_, ?_, ?_, ?_, ?_, fun h0 => h0 ▸ segments_of_zero windowSec hw⟩
  · simp [segments, numSegments]
  · intro i hi
    rw [segments, List.getElem?_map, List.getElem?_range hi]
    rfl
  · rw [segments, List.chain'_map]
    obtain ⟨m, hm⟩ : ∃ m, numSegments duration windowSec = m + 1 :=
      ⟨numSegments duration windowSec - 1,
        by have := numSegments_pos duration windowSec; omega⟩
    rw [hm, ← Nat.succ_eq_add_one, List.chain'_range_succ]
    intro i hi
    show (mkSegment duration windowSec i).endSec
        = (mkSegment duration windowSec i.succ).startSec
    have hlt : (((i + 1) * windowSec : ℕ) : ℚ) < duration :=
      succ_lt_num_mul_lt duration windowSec hw (by omega)
    simp only [mkSegment, Nat.succ_eq_add_one]
    rw [min_eq_left (le_of_lt hlt)]
  · rw [segments, List.pairwise_map]
    refine (List.pairwise_lt_range _).imp ?_
    intro a b hab
    show (mkSegment duration windowSec a).startSec
        < (mkSegment duration windowSec b).startSec
    simp only [mkSegment]
    push_cast
    have : ((a : ℚ)) < (b : ℚ) := by exact_mod_cast hab
    nlinarith
  · rw [segments, List.pairwise_map]
    refine (List.pairwise_lt_range _).imp ?_
    intro a b hab
    show (mkSegment duration windowSec a).endSec
        ≤ (mkSegment duration windowSec b).startSec
    simp only [mkSegment]
    refine le_trans (min_le_left _ _) ?_
    have hab1 : a + 1 ≤ b := hab
    push_cast
    have : ((a : ℚ)) + 1 ≤ (b : ℚ) := by exact_mod_cast hab1
    nlinarith
  · rw [segments, List.getLast?_map, List.getLast?_eq_getElem?, List.length_range,
      List.getElem?_range (by have := numSegments_pos duration windowSec; omega :
        numSegments duration windowSec - 1 < numSegments duration windowSec)]
    have hn1 : numSegments duration windowSec - 1 + 1 = numSegments duration windowSec := by
      have := numSegments_pos duration windowSec; omega
    have hle : duration ≤ ((numSegments duration windowSec * windowSec : ℕ) : ℚ) := by
      push_cast
      exact le_numSegments_mul duration windowSec hw
    have hend : (mkSegment duration windowSec (numSegments duration windowSec - 1)).endSec
        = duration := by
      simp only [mkSegment, hn1]
      exact min_eq_right hle
    simp [hend]

/-- Witness for C1 at duration 95 and window 30 (the spec's 95-second scenario). -/
theorem segmenter_count_and_coverage_witness :
    (0 ≤ (95 : ℚ)) ∧ (0 < 30) ∧
    ((segments 95 30).length = max 1 (Int.toNat ⌈(95 : ℚ) / ((30 : ℕ) : ℚ)⌉)
     ∧ (∀ i, i < numSegments 95 30 →
         (segments 95 30)[i]? =
           some ⟨i, ((i * 30 : ℕ) : ℚ), min (((i + 1) * 30 : ℕ) : ℚ) 95⟩)
     ∧ List.Chain' (fun a b => a.endSec = b.startSec) (segments 95 30)
     ∧ List.Pairwise (fun a b => a.startSec < b.startSec) (segments 95 30)
     ∧ List.Pairwise (fun a b => a.endSec ≤ b.startSec) (segments 95 30)
     ∧ ((segments 95 30).getLast?).map Segment.endSec = some 95
     ∧ ((95 : ℚ) = 0 → segments 95 30 = [⟨0, 0, 0⟩])) :=
  ⟨by norm_num, by norm_num,
    segmenter_count_and_coverage 95 30 (by norm_num) (by norm_num)⟩

/-- C6 counterexample: at duration 0 (a valid input, windowSec 30) the single
segment produced is `⟨0, 0, 0⟩`, whose `startSec` is not strictly below its
`endSec`, so the claimed strict inequality fails for the duration-0 case. -/
theorem segment_strict_bounds_counterexample :
    ¬ (∀ s ∈ segments 0 30, s.startSec < s.endSec) := by
  intro h
  have h0 : (⟨0, 0, 0⟩ : Segment) ∈ segments 0 30 := by
    rw [segments_of_zero 30 (by norm_num)]
    exact List.mem_singleton.mpr rfl
  exact lt_irrefl (0 : ℚ) (h _ h0)

/-- C6 amended: every segment satisfies `startSec ≤ endSec`, and the
inequality is strict whenever `duration > 0`; when `duration = 0` the single
segment is zero-length (`startSec = endSec = 0`). -/
theorem segment_bounds_amended (duration : ℚ) (windowSec : ℕ)
    (hd : 0 ≤ duration) (hw : 0 < windowSec) :
    (∀ s ∈ segments duration windowSec, s.startSec ≤ s.endSec)
    ∧ (0 < duration → ∀ s ∈ segments duration windowSec, s.startSec < s.endSec) := by
  have hw0 : (0 : ℚ) < (windowSec : ℚ) := by exact_mod_cast hw
  constructor
  · intro s hs
    rw [segments, List.mem_map] at hs
    obtain ⟨i, hi, rfl⟩ := hs
    rw [List.mem_range] at hi
    simp only [mkSegment]
    apply le_min
    · push_cast
      nlinarith
    · rcases Nat.eq_zero_or_pos i with h0 | hpos
      · subst h0; simpa using hd
      · exact le_of_lt (mul_lt_duration_of_pos_index duration windowSec hw hpos hi)
  · intro hdpos s hs
    rw [segments, List.mem_map] at hs
    obtain ⟨i, hi, rfl⟩ := hs
    rw [List.mem_range] at hi
    simp only [mkSegment]
    apply lt_min
    · push_cast
      nlinarith
    · rcases Nat.eq_zero_or_pos i with h0 | hpos
      · subst h0; simpa using hdpos
      · exact mul_lt_duration_of_pos_index duration windowSec hw hpos hi

/-- Witness for the amended C6 at duration 95 and window 30. -/
theorem segment_bounds_amended_witness :
    (0 ≤ (95 : ℚ)) ∧ (0 < 30) ∧
    ((∀ s ∈ segments 95 30, s.startSec ≤ s.endSec)
     ∧ ((0 : ℚ) < 95 → ∀ s ∈ segments 95 30, s.startSec < s.endSec)) :=
  ⟨by norm_num, by norm_num, segment_bounds_amended 95 30 (by norm_num) (by norm_num)⟩

/-- C10: when the decoded audio reports sample rate 0, the duration guard
takes the total duration to be `0.0` (no division happens) and exactly one
segment is processed, so the duration computation is total. -/
theorem zero_samplerate_safe (sampleCount : ℕ) (windowSec : ℕ) (hw : 0 < windowSec) :
    totalDuration sampleCount 0 = 0
    ∧ numSegments (totalDuration sampleCount 0) windowSec = 1
    ∧ segments (totalDuration sampleCount 0) windowSec = [⟨0, 0, 0⟩] := by
  have h0 : totalDuration sampleCount 0 = 0 := by simp [totalDuration]
  refine ⟨h0, ?_, ?_⟩
  · rw [h0]
    simp [numSegments]
  · rw [h0]
    exact segments_of_zero windowSec hw

/-- Witness for C10 at 480000 samples and window 30. -/
theorem zero_samplerate_safe_witness :
    (0 < 30) ∧
    (totalDuration 480000 0 = 0
     ∧ numSegments (totalDuration 480000 0) 30 = 1
     ∧ segments (totalDuration 480000 0) 30 = [⟨0, 0, 0⟩]) :=
  ⟨by norm_num, zero_samplerate_safe 480000 30 (by norm_num)⟩

/-! ## SpeakerAssigner theorems -/

lemma speakerScan_eq_find (t : ℚ) (l : List SpeakerTurn) :
    speakerScan t l =
      ((l.find? (fun s => decide (s.start ≤ t ∧ t ≤ s.endSec))).map
        SpeakerTurn.speaker).getD "" := by
  induction l with
  | nil => rfl
  | cons s rest ih =>
    by_cases h : s.start ≤ t ∧ t ≤ s.endSec
    · have hfind : List.find? (fun s => decide (s.start ≤ t ∧ t ≤ s.endSec)) (s :: rest)
          = some s := List.find?_cons_of_pos _ (decide_eq_true h)
      simp only [speakerScan, if_pos h, hfind]
      rfl
    · have hfind : List.find? (fun s => decide (s.start ≤ t ∧ t ≤ s.endSec)) (s :: rest)
          = List.find? (fun s => decide (s.start ≤ t ∧ t ≤ s.endSec)) rest :=
        List.find?_cons_of_neg _ (fun hc => h (of_decide_eq_true hc))
      simp only [speakerScan, if_neg h, hfind]
      exact ih

/-- C5: for every time `t` and every optional turn list, `_speaker_for`
returns the speaker of the first turn (in the original list order) with
`start ≤ t ≤ end`, bounds inclusive, and the empty string when no turn
matches or when no diarization data is present; being a pure function of
`t` and the list, it is deterministic. -/
theorem speaker_assigner_first_match (t : ℚ) (diar : Option (List SpeakerTurn)) :
    _speaker_for t diar =
      (((diar.getD []).find? (fun s => decide (s.start ≤ t ∧ t ≤ s.endSec))).map
        SpeakerTurn.speaker).getD "" := by
  cases diar with
  | none => rfl
  | some l => exact speakerScan_eq_find t l

/-! ## InfractionScanner theorems -/

lemma isSubstr_nil {t : List Char} (ht : t ≠ []) : isSubstr t [] = false := by
  cases t with
  | nil => exact absurd rfl ht
  | cons c rest => rfl

lemma wholeWordSearch_nil {t : List Char} (ht : t ≠ []) :
    wholeWordSearch t [] = false := by
  cases t with
  | nil => exact absurd rfl ht
  | cons c rest => rfl

lemma scanItem_shape {archivo texto inicio fin : String} {parcial : Bool}
    {item : String} {r : Infraccion}
    (h : scanItem archivo texto inicio fin parcial item = some r) :
    r = ⟨archivo, String.mk (pyLower (pyStrip item.data)), inicio, fin, texto⟩
    ∧ (if parcial then isSubstr (pyLower (pyStrip item.data)) (pyLower texto.data)
       else wholeWordSearch (pyLower (pyStrip item.data)) texto.data) = true
    ∧ pyLower (pyStrip item.data) ≠ [] := by
  unfold scanItem at h
  by_cases h0 : pyLower (pyStrip item.data) = []
  · rw [if_pos h0] at h
    exact absurd h (by simp)
  · rw [if_neg h0] at h
    by_cases hok : (if parcial then isSubstr (pyLower (pyStrip item.data)) (pyLower texto.data)
        else wholeWordSearch (pyLower (pyStrip item.data)) texto.data) = true
    · rw [if_pos hok] at h
      cases h
      exact ⟨rfl, hok, h0⟩
    · rw [if_neg hok] at h
      exact absurd h (by simp)

lemma scanItem_none_of_no_match {archivo texto inicio fin : String} {parcial : Bool}
    {item : String}
    (h0 : pyLower (pyStrip item.data) ≠ [])
    (hok : (if parcial then isSubstr (pyLower (pyStrip item.data)) (pyLower texto.data)
        else wholeWordSearch (pyLower (pyStrip item.data)) texto.data) = false) :
    scanItem archivo texto inicio fin parcial item = none := by
  unfold scanItem
  rw [if_neg h0, hok]
  simp

lemma scanItem_some_of_match {archivo texto inicio fin : String} {parcial : Bool}
    {item : String}
    (h0 : pyLower (pyStrip item.data) ≠ [])
    (hok : (if parcial then isSubstr (pyLower (pyStrip item.data)) (pyLower texto.data)
        else wholeWordSearch (pyLower (pyStrip item.data)) texto.data) = true) :
    scanItem archivo texto inicio fin parcial item =
      some ⟨archivo, String.mk (pyLower (pyStrip item.data)), inicio, fin, texto⟩ := by
  unfold scanItem
  rw [if_neg h0, hok]
  simp

lemma filter_scan_nil {archivo texto inicio fin : String} {parcial : Bool}
    {t : List Char} {cfg : List String}
    (hnone : ∀ item ∈ cfg, pyLower (pyStrip item.data) ≠ t) :
    (cfg.filterMap (scanItem archivo texto inicio fin parcial)).filter
      (fun r => r.termino == String.mk t) = [] := by
  rw [List.filter_eq_nil_iff]
  intro r hr
  rw [List.mem_filterMap] at hr
  obtain ⟨item, hitem, hsome⟩ := hr
  obtain ⟨hshape, -, -⟩ := scanItem_shape hsome
  subst hshape
  simp only [beq_iff_eq]
  intro hEq
  exact hnone item hitem (congrArg String.data hEq)

lemma filter_scan_count {archivo texto inicio fin : String} {parcial : Bool}
    {t : List Char} (ht : t ≠ []) :
    ∀ cfg : List String,
      (∃ item ∈ cfg, pyLower (pyStrip item.data) = t) →
      (cfg.map (fun x => pyLower (pyStrip x.data))).Nodup →
      ((cfg.filterMap (scanItem archivo texto inicio fin parcial)).filter
          (fun r => r.termino == String.mk t)).length
        = if (if parcial then isSubstr t (pyLower texto.data)
              else wholeWordSearch t texto.data) then 1 else 0 := by
  intro cfg
  induction cfg with
  | nil =>
    rintro ⟨x, hx, -⟩
    cases hx
  | cons x rest ih =>
    intro hmem hnodup
    rw [List.map_cons, List.nodup_cons] at hnodup
    by_cases hx : pyLower (pyStrip x.data) = t
    · have hrest : ∀ item ∈ rest, pyLower (pyStrip item.data) ≠ t := by
        intro item hitem heq
        exact hnodup.1 (hx ▸ heq ▸ List.mem_map_of_mem _ hitem)
      by_cases hok : (if parcial then isSubstr t (pyLower texto.data)
          else wholeWordSearch t texto.data) = true
      · have hsome : scanItem archivo texto inicio fin parcial x =
            some ⟨archivo, String.mk t, inicio, fin, texto⟩ := by
          have := @scanItem_some_of_match archivo texto inicio fin parcial x
            (by rw [hx]; exact ht) (by rw [hx]; exact hok)
          rw [hx] at this
          exact this
        simp only [List.filterMap_cons, hsome]
        rw [List.filter_cons]
        have hbeq : ((⟨archivo, String.mk t, inicio, fin,
            texto⟩ : Infraccion).termino == String.mk t) = true := by
          simp only [beq_iff_eq]
        rw [if_pos hbeq, filter_scan_nil hrest, if_pos hok]
        rfl
      · have hokf : (if parcial then isSubstr t (pyLower texto.data)
            else wholeWordSearch t texto.data) = false := eq_false_of_ne_true hok
        have hnone : scanItem archivo texto inicio fin parcial x = none :=
          @scanItem_none_of_no_match archivo texto inicio fin parcial x
            (by rw [hx]; exact ht) (by rw [hx]; exact hokf)
        simp only [List.filterMap_cons, hnone]
        rw [filter_scan_nil hrest, if_neg hok]
        rfl
    · have hmem' : ∃ item ∈ rest, pyLower (pyStrip item.data) = t := by
        obtain ⟨item, hitem, hitemt⟩ := hmem
        rcases List.mem_cons.mp hitem with rfl | hin
        · exact absurd hitemt hx
        · exact ⟨item, hin, hitemt⟩
      cases hscan : scanItem archivo texto inicio fin parcial x with
      | none =>
        simp only [List.filterMap_cons, hscan]
        exact ih hmem' hnodup.2
      | some r =>
        obtain ⟨hshape, -, -⟩ := scanItem_shape hscan
        subst hshape
        simp only [List.filterMap_cons, hscan]
        rw [List.filter_cons]
        have hbeq : ((⟨archivo, String.mk (pyLower (pyStrip x.data)), inicio, fin,
            texto⟩ : Infraccion).termino == String.mk t) = false := by
          simp only [beq_eq_false_iff_ne, ne_eq]
          intro hEq
          exact hx (congrArg String.data hEq)
        rw [if_neg (by simp [hbeq])]
        exact ih hmem' hnodup.2

/-- C4: for every configured non-blank (normalized) term `t` and every event
text: with `coincidencia_parcial = true` an infraction is reported iff the
case-folded term is a substring of the case-folded text; with
`coincidencia_parcial = false` iff the term occurs under case-insensitive
word-boundary (whole-word) matching of the original text; each matching term
yields exactly one record, and every record carries the full event text. -/
theorem scanner_term_matching (archivo texto inicio fin : String)
    (cfg : List String) (coincidencia_parcial : Bool) (t : List Char)
    (hmem : ∃ item ∈ cfg, pyLower (pyStrip item.data) = t)
    (hblank : t ≠ [])
    (hnodup : (cfg.map (fun x => pyLower (pyStrip x.data))).Nodup) :
    (((detectar_infracciones_en_texto archivo texto inicio fin cfg
          coincidencia_parcial).filter (fun r => r.termino == String.mk t)).length
      = if (if coincidencia_parcial then isSubstr t (pyLower texto.data)
            else wholeWordSearch t texto.data) then 1 else 0)
    ∧ ((∃ r ∈ detectar_infracciones_en_texto archivo texto inicio fin cfg
          coincidencia_parcial, r.termino = String.mk t)
        ↔ (if coincidencia_parcial then isSubstr t (pyLower texto.data)
           else wholeWordSearch t texto.data) = true)
    ∧ (∀ r ∈ detectar_infracciones_en_texto archivo texto inicio fin cfg
          coincidencia_parcial, r.texto = texto) := by
  have hcfg : cfg ≠ [] := by
    obtain ⟨item, hitem, -⟩ := hmem
    intro h
    rw [h] at hitem
    cases hitem
  have hcount : ((detectar_infracciones_en_texto archivo texto inicio fin cfg
        coincidencia_parcial).filter (fun r => r.termino == String.mk t)).length
      = if (if coincidencia_parcial then isSubstr t (pyLower texto.data)
            else wholeWordSearch t texto.data) then 1 else 0 := by
    unfold detectar_infracciones_en_texto
    by_cases hT : texto = ""
    · have hmatchF : (if coincidencia_parcial then isSubstr t (pyLower texto.data)
          else wholeWordSearch t texto.data) = false := by
        subst hT
        cases coincidencia_parcial with
        | false => simpa using wholeWordSearch_nil hblank
        | true => simpa using isSubstr_nil hblank
      rw [if_pos (Or.inl hT), hmatchF]
      rfl
    · rw [if_neg (by simp [hT, hcfg])]
      exact filter_scan_count hblank cfg hmem hnodup
  refine ⟨hcount, ?_, ?_⟩
  · constructor
    · rintro ⟨r, hr, hrt⟩
      by_contra hok
      have hzero := hcount
      rw [eq_false_of_ne_true hok] at hzero
      simp only [if_neg Bool.false_ne_true] at hzero
      have hmemf : r ∈ (detectar_infracciones_en_texto archivo texto inicio fin cfg
          coincidencia_parcial).filter (fun r => r.termino == String.mk t) :=
        List.mem_filter.mpr ⟨hr, by simp [hrt]⟩
      rw [List.length_eq_zero] at hzero
      rw [hzero] at hmemf
      cases hmemf
    · intro hok
      rw [hok, if_pos rfl] at hcount
      have hpos : 0 < ((detectar_infracciones_en_texto archivo texto inicio fin cfg
          coincidencia_parcial).filter (fun r => r.termino == String.mk t)).length := by
        omega
      obtain ⟨r, hr⟩ := List.exists_mem_of_length_pos hpos
      have := List.mem_filter.mp hr
      exact ⟨r, this.1, by simpa [beq_iff_eq] using this.2⟩
  · intro r hr
    unfold detectar_infracciones_en_texto at hr
    by_cases hg : texto = "" ∨ cfg = []
    · rw [if_pos hg] at hr
      cases hr
    · rw [if_neg hg] at hr
      rw [List.mem_filterMap] at hr
      obtain ⟨item, -, hsome⟩ := hr
      obtain ⟨hshape, -, -⟩ := scanItem_shape hsome
      rw [hshape]

/-- Witness for C4: term `mayday`, text `Mayday!`, whole-word mode — one
infraction is reported. -/
theorem scanner_term_matching_witness :
    (∃ item ∈ ["mayday"], pyLower (pyStrip item.data) = "mayday".data)
    ∧ ("mayday".data ≠ [])
    ∧ ((["mayday"].map (fun x => pyLower (pyStrip x.data))).Nodup)
    ∧ ((((detectar_infracciones_en_texto "f" "Mayday!" "00:00" "00:05" ["mayday"]
            false).filter (fun r => r.termino == String.mk "mayday".data)).length
        = if (if false then isSubstr "mayday".data (pyLower "Mayday!".data)
              else wholeWordSearch "mayday".data "Mayday!".data) then 1 else 0)
      ∧ ((∃ r ∈ detectar_infracciones_en_texto "f" "Mayday!" "00:00" "00:05"
            ["mayday"] false, r.termino = String.mk "mayday".data)
          ↔ (if false then isSubstr "mayday".data (pyLower "Mayday!".data)
             else wholeWordSearch "mayday".data "Mayday!".data) = true)
      ∧ (∀ r ∈ detectar_infracciones_en_texto "f" "Mayday!" "00:00" "00:05"
            ["mayday"] false, r.texto = "Mayday!")) :=
  ⟨⟨"mayday", by simp, by decide⟩, by decide, by decide,
    scanner_term_matching "f" "Mayday!" "00:00" "00:05" ["mayday"] false
      "mayday".data ⟨"mayday", by simp, by decide⟩ (by decide) (by decide)⟩

/-- C9: in whole-word mode the non-blank term `c+` (which ends in the
non-word character `+`) standing alone between spaces in `a c+ b` is not
reported, because `\b` adjacent to a non-word character requires a word
character on the other side; partial mode does report the same term there. -/
theorem whole_word_nonword_edge_term :
    pyLower (pyStrip "c+".data) ≠ []
    ∧ isSubstr "c+".data "a c+ b".data = true
    ∧ detectar_infracciones_en_texto "f" "a c+ b" "00:00" "00:05" ["c+"] false = []
    ∧ detectar_infracciones_en_texto "f" "a c+ b" "00:00" "00:05" ["c+"] true
        = [⟨"f", "c+", "00:00", "00:05", "a c+ b"⟩] :=
  ⟨by decide, by decide, by decide, by decide⟩

/-! ## Per-segment loop theorems -/

lemma segStep_segmentsDone (w : ℕ) (diar : Option (List SpeakerTurn))
    (engine : ℕ → Except String (List RawSeg)) (st : LoopState) (i : ℕ) :
    (segStep w diar engine st i).segmentsDone
      = st.segmentsDone ++ segEvents w diar engine i := by
  unfold segStep segEvents
  cases engine i <;> simp

lemma segStep_errors (w : ℕ) (diar : Option (List SpeakerTurn))
    (engine : ℕ → Except String (List RawSeg)) (st : LoopState) (i : ℕ) :
    (segStep w diar engine st i).segmentErrors
      = st.segmentErrors + (if engineFails engine i then 1 else 0) := by
  unfold segStep engineFails
  cases engine i <;> simp

lemma segStep_trace (w : ℕ) (diar : Option (List SpeakerTurn))
    (engine : ℕ → Except String (List RawSeg)) (st : LoopState) (i : ℕ) :
    (segStep w diar engine st i).clipTrace
      = st.clipTrace ++ [ClipAction.created i, ClipAction.deleted i] := by
  unfold segStep
  cases engine i <;> simp

lemma runSegments_succ (w : ℕ) (diar : Option (List SpeakerTurn))
    (engine : ℕ → Except String (List RawSeg)) (n : ℕ) :
    runSegments w diar engine (n + 1)
      = segStep w diar engine (runSegments w diar engine n) n := by
  unfold runSegments
  rw [List.range_succ, List.foldl_append]
  rfl

lemma runSegments_segmentsDone (w : ℕ) (diar : Option (List SpeakerTurn))
    (engine : ℕ → Except String (List RawSeg)) (n : ℕ) :
    (runSegments w diar engine n).segmentsDone
      = (List.range n).flatMap (segEvents w diar engine) := by
  induction n with
  | zero => rfl
  | succ n ih =>
    rw [runSegments_succ, segStep_segmentsDone, ih, List.range_succ,
      List.flatMap_append]
    simp

lemma runSegments_errors (w : ℕ) (diar : Option (List SpeakerTurn))
    (engine : ℕ → Except String (List RawSeg)) (n : ℕ) :
    (runSegments w diar engine n).segmentErrors
      = (List.range n).countP (engineFails engine) := by
  induction n with
  | zero => rfl
  | succ n ih =>
    rw [runSegments_succ, segStep_errors, ih, List.range_succ, List.countP_append]
    simp [List.countP_cons]

lemma runSegments_trace (w : ℕ) (diar : Option (List SpeakerTurn))
    (engine : ℕ → Except String (List RawSeg)) (n : ℕ) :
    (runSegments w diar engine n).clipTrace
      = (List.range n).flatMap
          (fun i => [ClipAction.created i, ClipAction.deleted i]) := by
  induction n with
  | zero => rfl
  | succ n ih =>
    rw [runSegments_succ, segStep_trace, ih, List.range_succ, List.flatMap_append]
    simp

lemma liveClipsAux_append (acc : List ℕ) (l1 l2 : List ClipAction) :
    liveClipsAux acc (l1 ++ l2) = liveClipsAux (liveClipsAux acc l1) l2 := by
  induction l1 generalizing acc with
  | nil => rfl
  | cons a rest ih =>
    cases a <;> simp [liveClipsAux, ih]

lemma liveClips_pair_trace (n : ℕ) :
    liveClips ((List.range n).flatMap
      (fun i => [ClipAction.created i, ClipAction.deleted i])) = [] := by
  induction n with
  | zero => rfl
  | succ n ih =>
    rw [List.range_succ, List.flatMap_append, liveClips, liveClipsAux_append]
    rw [show liveClipsAux [] ((List.range n).flatMap
        (fun i => [ClipAction.created i, ClipAction.deleted i])) = [] from ih]
    simp [liveClipsAux, List.erase_cons_head]

/-- C3: a segment on which the engine raises increments the error counter by
exactly one, persists a checkpoint with `next_segment = i + 1` and the events
accumulated so far, contributes no events, and leaves every other segment's
events unaffected: the final accumulator is the in-order concatenation of
each segment's own events and the error counter counts exactly the failing
segments, so a failure never aborts the file. -/
theorem engine_failure_isolated (windowSec : ℕ) (diar : Option (List SpeakerTurn))
    (engine : ℕ → Except String (List RawSeg)) (i n : ℕ) (msg : String)
    (hfail : engine i = Except.error msg) (hin : i < n) :
    (∀ st : LoopState,
        (segStep windowSec diar engine st i).segmentErrors = st.segmentErrors + 1
      ∧ (segStep windowSec diar engine st i).segmentsDone = st.segmentsDone
      ∧ (segStep windowSec diar engine st i).checkpoints =
          st.checkpoints ++ [(i + 1, st.segmentsDone), (i + 1, st.segmentsDone)])
    ∧ segEvents windowSec diar engine i = []
    ∧ (runSegments windowSec diar engine n).segmentsDone =
        (List.range n).flatMap (segEvents windowSec diar engine)
    ∧ (runSegments windowSec diar engine n).segmentErrors =
        (List.range n).countP (engineFails engine) := by
  refine ⟨?_, ?_, runSegments_segmentsDone windowSec diar engine n,
    runSegments_errors windowSec diar engine n⟩
  · intro st
    unfold segStep
    rw [hfail]
    exact ⟨rfl, rfl, by simp⟩
  · unfold segEvents
    rw [hfail]

/-- Witness for C3 with a concrete engine failing on segment 1 of 3. -/
theorem engine_failure_isolated_witness :
    sampleEngineFail 1 = Except.error "boom" ∧ 1 < 3 ∧
    ((∀ st : LoopState,
        (segStep 30 none sampleEngineFail st 1).segmentErrors = st.segmentErrors + 1
      ∧ (segStep 30 none sampleEngineFail st 1).segmentsDone = st.segmentsDone
      ∧ (segStep 30 none sampleEngineFail st 1).checkpoints =
          st.checkpoints ++ [(1 + 1, st.segmentsDone), (1 + 1, st.segmentsDone)])
    ∧ segEvents 30 none sampleEngineFail 1 = []
    ∧ (runSegments 30 none sampleEngineFail 3).segmentsDone =
        (List.range 3).flatMap (segEvents 30 none sampleEngineFail)
    ∧ (runSegments 30 none sampleEngineFail 3).segmentErrors =
        (List.range 3).countP (engineFails sampleEngineFail)) :=
  ⟨rfl, by norm_num,
    engine_failure_isolated 30 none sampleEngineFail 1 3 "boom" rfl (by norm_num)⟩

lemma mem_eventsOfResult {startSec : ℚ} {diar : Option (List SpeakerTurn)}
    {raws : List RawSeg} {e : TranscriptEvent}
    (he : e ∈ eventsOfResult startSec diar raws) :
    ∃ r ∈ raws, e.start = r.start + startSec := by
  unfold eventsOfResult at he
  rw [List.mem_filterMap] at he
  obtain ⟨r, hr, hsome⟩ := he
  refine ⟨r, hr, ?_⟩
  by_cases h0 : pyStrip r.text.data = []
  · simp [h0] at hsome
  · simp only [if_neg h0] at hsome
    cases hsome
    rfl

lemma pairwise_eventsOfResult {startSec : ℚ} {diar : Option (List SpeakerTurn)}
    {raws : List RawSeg}
    (hsorted : raws.Pairwise (fun a b => a.start ≤ b.start)) :
    (eventsOfResult startSec diar raws).Pairwise (fun a b => a.start ≤ b.start) := by
  unfold eventsOfResult
  rw [List.pairwise_filterMap]
  refine hsorted.imp ?_
  intro a b hab x hx y hy
  by_cases ha : pyStrip a.text.data = []
  · simp [ha] at hx
  · simp only [if_neg ha] at hx
    by_cases hb : pyStrip b.text.data = []
    · simp [hb] at hy
    · simp only [if_neg hb] at hy
      cases hx
      cases hy
      simpa using hab

lemma runSegments_sorted_aux (w : ℕ) (diar : Option (List SpeakerTurn))
    (engine : ℕ → Except String (List RawSeg))
    (hsorted : ∀ i raws, engine i = Except.ok raws →
        raws.Pairwise (fun a b => a.start ≤ b.start))
    (hlocal : ∀ i raws, engine i = Except.ok raws →
        ∀ r ∈ raws, 0 ≤ r.start ∧ r.start ≤ (w : ℚ)) :
    ∀ n, (runSegments w diar engine n).segmentsDone.Pairwise
          (fun a b => a.start ≤ b.start)
      ∧ ∀ e ∈ (runSegments w diar engine n).segmentsDone,
          e.start ≤ ((n * w : ℕ) : ℚ) := by
  intro n
  have hw0 : (0 : ℚ) ≤ (w : ℚ) := by positivity
  induction n with
  | zero =>
    exact ⟨List.Pairwise.nil, fun e he => by cases he⟩
  | succ n ih =>
    rw [runSegments_succ, segStep_segmentsDone]
    cases hcase : engine n with
    | error msg =>
      have hev : segEvents w diar engine n = [] := by
        unfold segEvents; rw [hcase]
      rw [hev, List.append_nil]
      refine ⟨ih.1, fun e he => le_trans (ih.2 e he) ?_⟩
      push_cast
      nlinarith
    | ok raws =>
      have hev : segEvents w diar engine n
          = eventsOfResult ((n * w : ℕ) : ℚ) diar raws := by
        unfold segEvents; rw [hcase]
      rw [hev]
      constructor
      · rw [List.pairwise_append]
        refine ⟨ih.1, pairwise_eventsOfResult (hsorted n raws hcase), ?_⟩
        intro a ha b hb
        obtain ⟨r, hr, hbe⟩ := mem_eventsOfResult hb
        have h0 := (hlocal n raws hcase r hr).1
        have ha' := ih.2 a ha
        rw [hbe]
        push_cast at ha' ⊢
        linarith
      · intro e he
        rw [List.mem_append] at he
        rcases he with he | he
        · have := ih.2 e he
          push_cast at this ⊢
          linarith
        · obtain ⟨r, hr, hbe⟩ := mem_eventsOfResult he
          have hle := (hlocal n raws hcase r hr).2
          rw [hbe]
          push_cast
          linarith

/-- C2: provided each engine call returns clip-local tuples in nondecreasing
start order whose starts lie inside the window, the `segments_done`
accumulator has nondecreasing absolute `start`: segments are processed in
index order and each event's absolute time is its clip-local start plus the
segment's `start_sec`. -/
theorem events_nondecreasing (windowSec : ℕ) (diar : Option (List SpeakerTurn))
    (engine : ℕ → Except String (List RawSeg)) (n : ℕ)
    (hsorted : ∀ i raws, engine i = Except.ok raws →
        raws.Pairwise (fun a b => a.start ≤ b.start))
    (hlocal : ∀ i raws, engine i = Except.ok raws →
        ∀ r ∈ raws, 0 ≤ r.start ∧ r.start ≤ (windowSec : ℚ)) :
    (runSegments windowSec diar engine n).segmentsDone.Pairwise
      (fun a b => a.start ≤ b.start) :=
  (runSegments_sorted_aux windowSec diar engine hsorted hlocal n).1

/-- Witness for C2 with a concrete ordered two-event engine over 2 segments. -/
theorem events_nondecreasing_witness :
    (∀ i raws, sampleEngineOk i = Except.ok raws →
        raws.Pairwise (fun a b => a.start ≤ b.start))
    ∧ (∀ i raws, sampleEngineOk i = Except.ok raws →
        ∀ r ∈ raws, 0 ≤ r.start ∧ r.start ≤ ((30 : ℕ) : ℚ))
    ∧ (runSegments 30 none sampleEngineOk 2).segmentsDone.Pairwise
        (fun a b => a.start ≤ b.start) := by
  have h1 : ∀ i raws, sampleEngineOk i = Except.ok raws →
      raws.Pairwise (fun a b => a.start ≤ b.start) := by
    intro i raws h
    cases h
    decide
  have h2 : ∀ i raws, sampleEngineOk i = Except.ok raws →
      ∀ r ∈ raws, 0 ≤ r.start ∧ r.start ≤ ((30 : ℕ) : ℚ) := by
    intro i raws h
    cases h
    decide
  exact ⟨h1, h2, events_nondecreasing 30 none sampleEngineOk 2 h1 h2⟩

/-- C8: each loop iteration appends exactly `created i, deleted i` to the
clip trace on both the success and the raise path, so the transient clip
never survives its own iteration, and after any run no clip is alive. -/
theorem clip_deleted_every_iteration (windowSec : ℕ)
    (diar : Option (List SpeakerTurn))
    (engine : ℕ → Except String (List RawSeg)) :
    (∀ st i, (segStep windowSec diar engine st i).clipTrace
        = st.clipTrace ++ [ClipAction.created i, ClipAction.deleted i])
    ∧ (∀ n, (runSegments windowSec diar engine n).clipTrace
        = (List.range n).flatMap
            (fun i => [ClipAction.created i, ClipAction.deleted i]))
    ∧ (∀ n, liveClips ((runSegments windowSec diar engine n).clipTrace) = []) := by
  refine ⟨fun st i => segStep_trace windowSec diar engine st i,
    fun n => runSegments_trace windowSec diar engine n, fun n => ?_⟩
  rw [runSegments_trace]
  exact liveClips_pair_trace n

/-! ## RunPackager theorems -/

lemma dedup_foldl_eq (l : List String) : ∀ acc : List String,
    l.foldl (fun acc p => if p ∈ acc then acc else acc ++ [p]) acc
      = acc ++ (keepFirsts l).filter (fun q => decide (q ∉ acc)) := by
  induction l with
  | nil =>
    intro acc
    simp [keepFirsts]
  | cons p rest ih =>
    intro acc
    rw [List.foldl_cons]
    by_cases hp : p ∈ acc
    · rw [if_pos hp, ih]
      congr 1
      rw [keepFirsts, List.filter_cons, if_neg (by simp [hp]), List.filter_filter]
      apply List.filter_congr
      intro a _
      by_cases ha : a ∈ acc
      · simp [ha]
      · have hne : a ≠ p := fun h => ha (h ▸ hp)
        simp [ha, hne]
    · rw [if_neg hp, ih]
      rw [keepFirsts, List.filter_cons, if_pos (by simp [hp]), List.filter_filter]
      rw [List.append_assoc, List.singleton_append]
      congr 2
      apply List.filter_congr
      intro a _
      by_cases h1 : a ∈ acc <;> by_cases h2 : a = p <;>
        simp [h1, h2, List.mem_append]

lemma dedupFirst_eq_keepFirsts (l : List String) : dedupFirst l = keepFirsts l := by
  unfold dedupFirst
  rw [dedup_foldl_eq l [], List.nil_append]
  apply List.filter_eq_self.mpr
  intro a _
  simp

lemma keepFirsts_sublist (l : List String) : (keepFirsts l).Sublist l := by
  induction l with
  | nil => simp [keepFirsts]
  | cons p rest ih =>
    rw [keepFirsts]
    exact List.Sublist.cons₂ p ((List.filter_sublist _).trans ih)

lemma keepFirsts_nodup (l : List String) : (keepFirsts l).Nodup := by
  induction l with
  | nil => simp [keepFirsts]
  | cons p rest ih =>
    rw [keepFirsts, List.nodup_cons]
    refine ⟨?_, ih.filter _⟩
    intro hmem
    rw [List.mem_filter] at hmem
    simpa using hmem.2

lemma mem_keepFirsts {l : List String} {x : String} :
    x ∈ keepFirsts l ↔ x ∈ l := by
  induction l with
  | nil => simp [keepFirsts]
  | cons p rest ih =>
    rw [keepFirsts]
    by_cases hx : x = p
    · subst hx; simp
    · constructor
      · intro h
        rcases List.mem_cons.mp h with h | h
        · exact absurd h hx
        · exact List.mem_cons.mpr (Or.inr (ih.mp (List.mem_filter.mp h).1))
      · intro h
        rcases List.mem_cons.mp h with h | h
        · exact absurd h hx
        · exact List.mem_cons.mpr
            (Or.inr (List.mem_filter.mpr ⟨ih.mpr h, by simp [hx]⟩))

/-- C7: the packager filters the artifact list to existing non-empty paths,
deduplicates it preserving first occurrence and order, writes the
`meta.json` descriptor followed by the surviving artifacts into one archive
and returns its path; a write failure yields `None` rather than an
exception (the function is total), and when every artifact path is missing
the archive holds only the metadata descriptor and is still a success. -/
theorem run_packager_spec (fsExists : String → Bool) (zip_path : String)
    (generated_paths : List String) :
    (packageRun fsExists false zip_path generated_paths
      = some (zip_path, "meta.json" ::
          (dedupFirst (generated_paths.filter
            (fun p => (p != "") && fsExists p))).map pathName))
    ∧ (packageRun fsExists true zip_path generated_paths = none)
    ∧ (dedupFirst (generated_paths.filter (fun p => (p != "") && fsExists p))
        = keepFirsts (generated_paths.filter (fun p => (p != "") && fsExists p)))
    ∧ (dedupFirst (generated_paths.filter (fun p => (p != "") && fsExists p))).Nodup
    ∧ (dedupFirst (generated_paths.filter (fun p => (p != "") && fsExists p))).Sublist
        (generated_paths.filter (fun p => (p != "") && fsExists p))
    ∧ ((∀ p ∈ generated_paths, fsExists p = false) →
        packageRun fsExists false zip_path generated_paths
          = some (zip_path, ["meta.json"])) := by
  have hid : (dedupFirst (generated_paths.filter
        (fun p => (p != "") && fsExists p))).filter
          (fun p => (p != "") && fsExists p)
      = dedupFirst (generated_paths.filter (fun p => (p != "") && fsExists p)) := by
    apply List.filter_eq_self.mpr
    intro a ha
    rw [dedupFirst_eq_keepFirsts] at ha
    exact (List.mem_filter.mp (mem_keepFirsts.mp ha)).2
  refine ⟨?_, rfl, dedupFirst_eq_keepFirsts _,
    dedupFirst_eq_keepFirsts _ ▸ keepFirsts_nodup _,
    dedupFirst_eq_keepFirsts _ ▸ keepFirsts_sublist _, ?_⟩
  · unfold packageRun _make_run_zip
    rw [if_neg (by simp), hid]
  · intro hmiss
    have hnil : generated_paths.filter (fun p => (p != "") && fsExists p) = [] := by
      rw [List.filter_eq_nil_iff]
      intro p hp
      simp [hmiss p hp]
    unfold packageRun _make_run_zip
    rw [hnil]
    simp [dedupFirst]

/-- Witness for C7 on a filesystem where no path exists. -/
theorem run_packager_spec_witness :
    (packageRun (fun _ => false) false "corrida.zip" ["a.txt", "a.txt", ""]
      = some ("corrida.zip", "meta.json" ::
          (dedupFirst (["a.txt", "a.txt", ""].filter
            (fun p => (p != "") && (fun _ => false) p))).map pathName))
    ∧ (packageRun (fun _ => false) true "corrida.zip" ["a.txt", "a.txt", ""] = none)
    ∧ (dedupFirst (["a.txt", "a.txt", ""].filter
          (fun p => (p != "") && (fun _ => false) p))
        = keepFirsts (["a.txt", "a.txt", ""].filter
          (fun p => (p != "") && (fun _ => false) p)))
    ∧ (dedupFirst (["a.txt", "a.txt", ""].filter
        (fun p => (p != "") && (fun _ => false) p))).Nodup
    ∧ (dedupFirst (["a.txt", "a.txt", ""].filter
        (fun p => (p != "") && (fun _ => false) p))).Sublist
        (["a.txt", "a.txt", ""].filter (fun p => (p != "") && (fun _ => false) p))
    ∧ ((∀ p ∈ ["a.txt", "a.txt", ""], (fun _ => false) p = false) →
        packageRun (fun _ => false) false "corrida.zip" ["a.txt", "a.txt", ""]
          = some ("corrida.zip", ["meta.json"])) :=
  run_packager_spec (fun _ => false) "corrida.zip" ["a.txt", "a.txt", ""]

end Transcriptor
